import Mathlib

/-!
Verification of the Secure-Agent-Launcher core (`agent_locker`) against its
natural-language specification.  The Python modules `policy.py`, `runner.py`
and `audit.py` are shallowly embedded as executable Lean definitions.

Modelling conventions:
* Filesystem paths are POSIX paths.  An absolute, fully resolved path is
  represented by its list of components (the leading `/` anchor is implicit).
* `Path.resolve(strict=False)` is modelled lexically (`..` popping, clamped at
  the root); symlinks are modelled as absent, which matches the specification's
  reading of normalization ("resolved without requiring existence").
* Ambient process state (the home directory used by `expanduser`, the process
  working directory used when `base_dir is None`, the PATH lookup performed by
  `shutil.which`, and `os.getenv`) is passed explicitly in a `SysEnv` record.
* Python values of type `str | Path` are modelled by the sum type `PathInput`:
  `Path(path)` re-parses a string but reuses the parts of a `Path` object
  unchanged, and the embedding mirrors that.
-/

/-!
Python strings are sequences of code points, so the embedding performs its
string operations on `String.toList`; the Lean built-ins working on UTF-8 byte
positions compute the same functions but are avoided so every definition
reduces inside the kernel.
-/

/-- Python `s.startswith(p)`. -/
def strStartsWith (s p : String) : Bool := p.toList.isPrefixOf s.toList

/-- Python `s.endswith(p)`. -/
def strEndsWith (s p : String) : Bool := p.toList.isSuffixOf s.toList

/-- Python `c in s` for a single character. -/
def strContainsChar (s : String) (c : Char) : Bool := s.toList.contains c

/-- Split a character list at every occurrence of `sep` (Python `s.split(sep)`
for a one-character separator). -/
def splitCharsOn (sep : Char) : List Char → List (List Char)
  | [] => [[]]
  | c :: rest =>
    let r := splitCharsOn sep rest
    if c = sep then [] :: r
    else
      match r with
      | h :: t => (c :: h) :: t
      | [] => [[c]]

/-- Split a character list at the first occurrence of `sep`, when present
(Python `s.split(sep, 1)` / the interesting half of `s.partition(sep)`). -/
def splitOnceChar (sep : Char) : List Char → Option (List Char × List Char)
  | [] => none
  | c :: rest =>
    if c = sep then some ([], rest)
    else (splitOnceChar sep rest).map (fun p => (c :: p.1, p.2))

/-- One component of a path string: split on `/`, dropping empty components and
single dots, exactly as the Python `Path` constructor does. -/
def splitComponents (s : String) : List String :=
  ((splitCharsOn '/' s.toList).map String.mk).filter (fun c => c ≠ "" && c ≠ ".")

/-- A value that Python would accept where `str | Path` is expected.  A `Path`
object is its `is_absolute()` flag together with its component list. -/
inductive PathInput where
  | str (s : String)
  | path (absolute : Bool) (parts : List String)
deriving Repr, DecidableEq

/-- Convert a `str | Path` value to a `Path` object, as `Path(path)` does:
strings are parsed, `Path` objects are reused unchanged. -/
def PathInput.toPathObj : PathInput → Bool × List String
  | .str s => (strStartsWith s "/", splitComponents s)
  | .path ab ps => (ab, ps)

/-- `Path.expanduser()`: if the path is relative and its first component is
`~`, replace it by the home directory.  (Other `~user` forms would consult the
system user database; the model leaves them unchanged.) -/
def expanduserP (home : List String) : Bool × List String → Bool × List String
  | (true, ps) => (true, ps)
  | (false, ps) =>
    match ps with
    | "~" :: rest => (true, home ++ rest)
    | _ => (false, ps)

/-- Lexical `..` resolution over a component list, clamped at the root: the
component-level content of `Path.resolve(strict=False)` on a symlink-free
filesystem.  (`.` and empty components were already dropped by parsing.) -/
def resolveComponents (parts : List String) : List String :=
  (parts.foldl (fun acc c => if c = ".." then acc.tail else c :: acc) []).reverse

/-- Ambient process state consulted by the embedded functions. -/
structure SysEnv where
  home : List String
  processCwd : List String
  which : String → Option String
  getenv : String → Option String

/-- `policy.normalize_path(path, base_dir=None)`: expand the user shorthand,
resolve a relative path against `base_dir` (or the process working directory
when `base_dir is None`), then resolve `..` components. -/
def normalize_path (env : SysEnv) (path : PathInput) (baseDir : Option (List String)) : List String :=
  let raw := expanduserP env.home path.toPathObj
  let joined := if raw.1 then raw.2 else (baseDir.getD env.processCwd) ++ raw.2
  resolveComponents joined

/-- `policy.is_subpath(path, parent)`: `path.relative_to(parent)` succeeds on
absolute normalized paths exactly when `parent`'s components are a leading
segment of `path`'s components. -/
def is_subpath (path parent : List String) : Bool :=
  parent.isPrefixOf path

/-- `policy.Policy`: the enabled flag and the normalized deny paths. -/
structure Policy where
  enabled : Bool
  deny_paths : List (List String)
deriving Repr, DecidableEq

/-- `Policy.is_denied(target, base_dir=None)`: false unconditionally when the
policy is disabled; otherwise normalize the target and test whether any deny
path is an ancestor-or-equal. -/
def Policy.is_denied (pol : Policy) (env : SysEnv) (target : PathInput) (baseDir : Option (List String)) : Bool :=
  if !pol.enabled then false
  else
    let normalized := normalize_path env target baseDir
    pol.deny_paths.any (fun deny => is_subpath normalized deny)

/-- A JSON value, the shape of data a persisted policy document can hold. -/
inductive JValue where
  | null
  | jbool (b : Bool)
  | jnum (n : Int)
  | jstr (s : String)
  | jarr (elems : List JValue)
  | jobj (fields : List (String × JValue))

/-- `dict.get(key)` on a JSON object. -/
def jlookup (fields : List (String × JValue)) (key : String) : Option JValue :=
  (fields.find? (fun f => f.1 = key)).map (fun f => f.2)

/-- The entry loop of `Policy.from_dict`: reject the first non-string entry of
`deny_paths` with a `PolicyError`, otherwise normalize every entry. -/
def denyEntriesFromList (env : SysEnv) (baseDir : Option (List String)) : List JValue → Except String (List (List String))
  | [] => .ok []
  | .jstr s :: rest =>
    match denyEntriesFromList env baseDir rest with
    | .ok tail => .ok (normalize_path env (.str s) baseDir :: tail)
    | .error e => .error e
  | _ :: _ => .error "'deny_paths' entries must be strings"

/-- `Policy.from_dict(data, base_dir=None)`: `enabled` defaults to true and
must be a boolean, `deny_paths` must be a list of strings, every entry is
normalized; any violation raises `PolicyError` (modelled as `Except.error`). -/
def Policy.fromDict (env : SysEnv) (fields : List (String × JValue)) (baseDir : Option (List String)) : Except String Policy :=
  match (jlookup fields "enabled").getD (.jbool true) with
  | .jbool b =>
    match jlookup fields "deny_paths" with
    | some (.jarr values) =>
      match denyEntriesFromList env baseDir values with
      | .ok paths => .ok { enabled := b, deny_paths := paths }
      | .error e => .error e
    | _ => .error "'deny_paths' must be a list"
  | _ => .error "'enabled' must be a boolean"

/-- Render an absolute normalized path back to the string `str(path)` yields. -/
def pathToString (parts : List String) : String :=
  String.mk ('/' :: List.intercalate ['/'] (parts.map String.toList))

/- ### Theorems about the policy component -/

/-- Helper: `resolveComponents` never emits a `..` component. -/
theorem resolveAux_no_dotdot (parts acc : List String)
    (hacc : ".." ∉ acc) :
    ".." ∉ parts.foldl (fun acc c => if c = ".." then acc.tail else c :: acc) acc := by
  induction parts generalizing acc with
  | nil => simpa using hacc
  | cons c rest ih =>
    simp only [List.foldl_cons]
    by_cases hc : c = ".."
    · rw [if_pos hc]
      exact ih _ (fun hmem => hacc (List.mem_of_mem_tail hmem))
    · rw [if_neg hc]
      apply ih
      intro hmem
      rcases List.mem_cons.mp hmem with h | h
      · exact hc h.symm
      · exact hacc h

theorem resolveComponents_no_dotdot (parts : List String) :
    ".." ∉ resolveComponents parts := by
  unfold resolveComponents
  intro hmem
  exact resolveAux_no_dotdot parts [] (by simp) (List.mem_reverse.mp hmem)

/-- Helper: on a list free of `..`, `resolveComponents` is the identity. -/
theorem resolveComponents_of_no_dotdot (parts : List String)
    (h : ".." ∉ parts) : resolveComponents parts = parts := by
  unfold resolveComponents
  have key : ∀ (l acc : List String), ".." ∉ l →
      l.foldl (fun acc c => if c = ".." then acc.tail else c :: acc) acc
        = l.reverse ++ acc := by
    intro l
    induction l with
    | nil => intro acc _; simp
    | cons c rest ih =>
      intro acc hl
      have hc : c ≠ ".." := fun hcc => hl (by simp [hcc])
      have hrest : ".." ∉ rest := fun hmem => hl (List.mem_cons_of_mem _ hmem)
      simp only [List.foldl_cons, if_neg hc, ih (c :: acc) hrest,
        List.reverse_cons, List.append_assoc, List.cons_append, List.nil_append]
  rw [key parts [] h]
  simp

/-- C2: For every Policy value with enabled=false, and for every target path
and every optional base_dir, Policy.is_denied returns false, regardless of the
contents of deny_paths. -/
theorem c2_disabled_policy_denies_nothing
    (dps : List (List String)) (env : SysEnv) (target : PathInput)
    (baseDir : Option (List String)) :
    Policy.is_denied ⟨false, dps⟩ env target baseDir = false := rfl

/-- C3: For all normalized absolute paths P and D, is_subpath(P, D) returns
true iff P = D or D's component sequence is a proper prefix of P's component
sequence; in particular the path with single component "secrets2" is not under
the deny path with single component "secrets" despite the string prefix. -/
theorem c3_is_subpath_component_prefix :
    (∀ p d : List String, is_subpath p d = true ↔ (p = d ∨ (d <+: p ∧ d ≠ p))) ∧
    is_subpath ["secrets2"] ["secrets"] = false := by
  constructor
  · intro p d
    rw [is_subpath, List.isPrefixOf_iff_prefix]
    constructor
    · intro h
      by_cases hpd : p = d
      · exact Or.inl hpd
      · exact Or.inr ⟨h, fun hdp => hpd hdp.symm⟩
    · rintro (rfl | ⟨h, _⟩)
      · exact List.prefix_refl p
      · exact h
  · decide

/-- C7: normalize is idempotent: for every input path x, base directory
option, and ambient environment, re-normalizing the path object produced by
normalize_path yields the same path. -/
theorem c7_normalize_idempotent (env : SysEnv) (x : PathInput)
    (baseDir : Option (List String)) :
    normalize_path env (.path true (normalize_path env x baseDir)) baseDir
      = normalize_path env x baseDir := by
  conv_lhs => unfold normalize_path
  simp only [PathInput.toPathObj, expanduserP]
  exact resolveComponents_of_no_dotdot _ (resolveComponents_no_dotdot _)

/- ### Embedding of `runner.py` -/

/-- `runner.TEST_MODE_ENV`. -/
def TEST_MODE_ENV : String := "AGENT_LOCKER_TEST_MODE"

/-- `runner.PATH_OPTION_NAMES`. -/
def PATH_OPTION_NAMES : List String :=
  ["-C", "-c", "-f", "-o", "--cd", "--config", "--config-file", "--config-path",
   "--cwd", "--directory", "--file", "--input", "--log-file", "--output",
   "--path", "--policy", "--project", "--root", "--settings", "--workdir"]

/-- `runner.PATH_SUFFIX_HINTS`. -/
def PATH_SUFFIX_HINTS : List String :=
  [".cfg", ".conf", ".crt", ".csr", ".env", ".ini", ".json", ".key", ".md",
   ".pem", ".py", ".sh", ".toml", ".txt", ".yaml", ".yml"]

/-- `s.split("=", 1)` when `=` occurs: the text before the first `=` and the
text after it.  `none` when the string holds no `=`. -/
def splitOnceEq (s : String) : Option (String × String) :=
  (splitOnceChar '=' s.toList).map (fun p => (String.mk p.1, String.mk p.2))

/-- `runner._looks_like_path`. -/
def looksLikePath (value : String) : Bool :=
  if value = "" then false
  else if strStartsWith value "~" || strStartsWith value "/" || strStartsWith value "./"
      || strStartsWith value "../" then true
  else if strEndsWith value "/" || strEndsWith value "\\" then true
  else if PATH_SUFFIX_HINTS.any (fun suf => strEndsWith value suf) then true
  else if 3 ≤ value.toList.length
      ∧ ((value.toList.drop 1).take 2 = [':', '\\']
          ∨ (value.toList.drop 1).take 2 = [':', '/']) then true
  else if strContainsChar value '/' || strContainsChar value '\\' then true
  else false

/-- `runner._option_expects_path`. -/
def optionExpectsPath (optionName : String) : Bool :=
  PATH_OPTION_NAMES.contains optionName

/-- The regular expression `[A-Za-z_][A-Za-z0-9_]*` of `_is_env_assignment`. -/
def isEnvIdent (s : String) : Bool :=
  match s.toList with
  | [] => false
  | c :: rest => (c.isAlpha || c = '_') && rest.all (fun d => d.isAlphanum || d = '_')

/-- `runner._is_env_assignment`. -/
def isEnvAssignment (token : String) : Bool :=
  match splitOnceEq token with
  | none => false
  | some (left, _) => left != "" && isEnvIdent left

/-- `runner._extract_path_tokens`. -/
def extractPathTokens (arg : String) : List String :=
  match splitOnceEq arg with
  | some (_, right) => if looksLikePath right then [right] else []
  | none => if looksLikePath arg then [arg] else []

/-- `runner._resolve_candidate_paths`: every extracted token is normalized
against the request working directory.  (The `OSError` guard never fires in
the lexical path model, where normalization is total.) -/
def resolveCandidatePaths (env : SysEnv) (arg : String) (cwd : List String) : List (List String) :=
  (extractPathTokens arg).map (fun tok => normalize_path env (.str tok) (some cwd))

/-- The positional scan of `runner.extract_candidate_paths`, with the
"expecting a path value" state explicit. -/
def extractCandidatesAux (env : SysEnv) (cwd : List String) : Bool → List String → List (List String)
  | _, [] => []
  | expectPathValue, arg :: rest =>
    if arg = "" then extractCandidatesAux env cwd expectPathValue rest
    else if expectPathValue then
      resolveCandidatePaths env arg cwd ++ extractCandidatesAux env cwd false rest
    else if strStartsWith arg "-" then
      match splitOnceEq arg with
      | some (opt, optValue) =>
        (if optionExpectsPath opt || looksLikePath optValue then
            resolveCandidatePaths env optValue cwd
          else []) ++ extractCandidatesAux env cwd false rest
      | none => extractCandidatesAux env cwd (optionExpectsPath arg) rest
    else
      resolveCandidatePaths env arg cwd ++ extractCandidatesAux env cwd false rest

/-- `runner.extract_candidate_paths`. -/
def extract_candidate_paths (env : SysEnv) (args : List String) (cwd : List String) : List (List String) :=
  extractCandidatesAux env cwd false args

/-- `runner.resolve_executable`: a binary containing a separator is normalized
directly (against the process working directory, `base_dir=None`); a bare name
goes through the PATH lookup and yields no candidate when unresolved. -/
def resolve_executable (env : SysEnv) (binary : String) : Option (List String) :=
  if strContainsChar binary '/' then some (normalize_path env (.str binary) none)
  else
    match env.which binary with
    | none => none
    | some resolved => some (normalize_path env (.str resolved) none)

/-- The leading loop of `find_blocked_paths`: consume environment-assignment
tokens, stop at the first other token (the executable).  Returns the consumed
assignment tokens, the executable if any, and `args_start`, which stays at its
initial value 1 when every token is an assignment. -/
def scanHeadAux : List String → Nat → List String × Option String × Nat
  | [], _ => ([], none, 1)
  | tok :: rest, idx =>
    if isEnvAssignment tok then
      let r := scanHeadAux rest (idx + 1)
      (tok :: r.1, r.2.1, r.2.2)
    else ([], some tok, idx + 1)

/-- Code-point lexicographic comparison of character lists: the order Python
uses to compare strings. -/
def charListLt : List Char → List Char → Bool
  | [], [] => false
  | [], _ :: _ => true
  | _ :: _, [] => false
  | a :: as, b :: bs => if a < b then true else if b < a then false else charListLt as bs

/-- Code-point lexicographic comparison of strings. -/
def strLt (a b : String) : Bool := charListLt a.toList b.toList

/-- Insert into a sorted duplicate-free list, keeping it sorted and
duplicate-free. -/
def insertSorted (s : String) : List String → List String
  | [] => [s]
  | t :: ts =>
    if s = t then t :: ts
    else if strLt s t then s :: t :: ts
    else t :: insertSorted s ts

/-- `sorted(set(...))` over strings. -/
def sortedDedup (l : List String) : List String :=
  l.foldl (fun acc s => insertSorted s acc) []

/-- `runner.find_blocked_paths`: scan leading environment assignments, the
executable position and the remaining arguments for candidates, keep those the
policy denies (checked with `base_dir=None`), and return them as a sorted
duplicate-free list of path strings. -/
def find_blocked_paths (env : SysEnv) (command : List String) (cwd : List String) (pol : Policy) : List String :=
  let scanned := scanHeadAux command 0
  let envCandidates := scanned.1.flatMap (fun tok => resolveCandidatePaths env tok cwd)
  let exeCandidates : List (List String) :=
    match scanned.2.1 with
    | none => []
    | some binary => (resolve_executable env binary).toList
  let argCandidates := extract_candidate_paths env (command.drop scanned.2.2) cwd
  let denied := (envCandidates ++ exeCandidates ++ argCandidates).filter
    (fun cand => pol.is_denied env (.path true cand) none)
  sortedDedup (denied.map pathToString)

/-- `runner.RunRequest`. -/
structure RunRequest where
  command : List String
  cwd : List String
  execute : Bool
  timeout_sec : Option Nat
deriving Repr, DecidableEq

/-- `runner.RunResult`. -/
structure RunResult where
  executed : Bool
  exit_code : Int
  reason : String
  message : String
  stdout : String
  stderr : String
  blocked_paths : List String
deriving Repr, DecidableEq

/-- The observable behaviours of an injected executor call: a completed
process, `FileNotFoundError`, or `subprocess.TimeoutExpired` carrying the
partial streams captured before the timeout fired. -/
inductive ExecOutcome where
  | completed (returncode : Int) (stdout stderr : Option String)
  | fileNotFound (msg : String)
  | timedOut (timeout : Nat) (stdout stderr : Option String)
deriving Repr, DecidableEq

/-- The injectable executor collaborator. -/
def Executor := List String → List String → Option Nat → ExecOutcome

/-- `runner.CommandRunner`. -/
structure CommandRunner where
  executor : Executor

/-- `CommandRunner.run`: the strictly ordered decision sequence of the gate. -/
def CommandRunner.run (self : CommandRunner) (env : SysEnv) (request : RunRequest) (pol : Policy) : RunResult :=
  if request.command = [] then
    ⟨false, 2, "invalid_request", "Command is required.", "", "", []⟩
  else
    let blocked := find_blocked_paths env request.command request.cwd pol
    if blocked ≠ [] then
      ⟨false, 25, "blocked_by_policy", "Command blocked by deny policy.", "", "", blocked⟩
    else if !request.execute then
      ⟨false, 0, "dry_run", "Dry run only. Use --execute to allow execution.", "", "", []⟩
    else if (env.getenv TEST_MODE_ENV).getD "" = "1" then
      ⟨false, 26, "test_mode_block", "Execution blocked because " ++ TEST_MODE_ENV ++ "=1.", "", "", []⟩
    else
      match self.executor request.command request.cwd request.timeout_sec with
      | .fileNotFound msg =>
        ⟨false, 127, "command_not_found", msg, "", "", []⟩
      | .timedOut t sout serr =>
        ⟨true, 124, "timeout", "Command timed out after " ++ toString t ++ " seconds.",
          sout.getD "", serr.getD "", []⟩
      | .completed rc sout serr =>
        ⟨true, rc, "executed", "Command executed.", sout.getD "", serr.getD "", []⟩

/- ### Theorems about the gate and the extractor -/

/-- Concrete ambient environment used by the closed witness statements. -/
def envW : SysEnv := ⟨["root"], [], fun _ => none, fun _ => none⟩

/-- Concrete enabled policy denying the directory `/secret`. -/
def polW : Policy := ⟨true, [["secret"]]⟩

/-- Concrete enabled policy with an empty deny list. -/
def polEmpty : Policy := ⟨true, []⟩

/-- Concrete blocked request, submitted with `execute = false`. -/
def reqW : RunRequest := ⟨["cat", "/secret/token.txt"], ["tmp"], false, none⟩

/-- Concrete runner whose executor completes immediately. -/
def runnerW : CommandRunner := ⟨fun _ _ _ => .completed 0 none none⟩

/-- C1: For every RunRequest with a non-empty command whose extracted
candidate paths include at least one path denied by the enabled policy (i.e.
find_blocked_paths is non-empty), CommandRunner.run returns reason
'blocked_by_policy' with executed=false, exit_code 25 and the blocked paths
populated, even when execute=false; and the 'dry_run' and 'test_mode_block'
outcomes are reachable only when the blocked-path set is empty. -/
theorem c1_blocked_by_policy_preempts
    (self : CommandRunner) (env : SysEnv) (request : RunRequest) (pol : Policy)
    (hcmd : request.command ≠ [])
    (hblocked : find_blocked_paths env request.command request.cwd pol ≠ []) :
    self.run env request pol =
      ⟨false, 25, "blocked_by_policy", "Command blocked by deny policy.", "", "",
        find_blocked_paths env request.command request.cwd pol⟩ ∧
    ∀ (self' : CommandRunner) (env' : SysEnv) (request' : RunRequest) (pol' : Policy),
      ((self'.run env' request' pol').reason = "dry_run"
        ∨ (self'.run env' request' pol').reason = "test_mode_block") →
      find_blocked_paths env' request'.command request'.cwd pol' = [] := by
  constructor
  · simp [CommandRunner.run, hcmd, hblocked]
  · intro self' env' request' pol' h
    by_contra hb
    rcases List.eq_nil_or_concat request'.command with hnil | _
    · have hreason : (self'.run env' request' pol').reason = "invalid_request" := by
        simp [CommandRunner.run, hnil]
      rcases h with h | h <;> rw [hreason] at h <;> exact absurd h (by decide)
    · have hcmd' : request'.command ≠ [] := by
        rintro hnil
        rename_i hconcat
        rcases hconcat with ⟨l, a, hla⟩
        simp [hnil] at hla
      have hreason : (self'.run env' request' pol').reason = "blocked_by_policy" := by
        simp [CommandRunner.run, hcmd', hb]
      rcases h with h | h <;> rw [hreason] at h <;> exact absurd h (by decide)

/-- C1 witness: the concrete denied request with execute=false yields the
blocked_by_policy result. -/
theorem c1_witness :
    reqW.command ≠ [] ∧
    find_blocked_paths envW reqW.command reqW.cwd polW ≠ [] ∧
    runnerW.run envW reqW polW =
      ⟨false, 25, "blocked_by_policy", "Command blocked by deny policy.", "", "",
        find_blocked_paths envW reqW.command reqW.cwd polW⟩ :=
  ⟨by decide, by decide,
    (c1_blocked_by_policy_preempts runnerW envW reqW polW (by decide) (by decide)).1⟩

/-- Concrete runner whose executor reports an expired timeout with partial
streams. -/
def runnerT : CommandRunner :=
  ⟨fun _ _ _ => .timedOut 5 (some "partial-out") (some "partial-err")⟩

/-- Concrete executable request that passes the policy check. -/
def reqT : RunRequest := ⟨["sleep", "5"], ["tmp"], true, some 5⟩

/-- C9: When a request with execute=true passes the policy check, test mode is
not active, and the injected executor signals that the timeout elapsed,
CommandRunner.run returns reason 'timeout' with exit_code 124, executed=true,
and the partial stdout/stderr captured before the timeout fired. -/
theorem c9_timeout_result
    (self : CommandRunner) (env : SysEnv) (request : RunRequest) (pol : Policy)
    (t : Nat) (sout serr : Option String)
    (hcmd : request.command ≠ [])
    (hblocked : find_blocked_paths env request.command request.cwd pol = [])
    (hexec : request.execute = true)
    (htest : (env.getenv TEST_MODE_ENV).getD "" ≠ "1")
    (hrun : self.executor request.command request.cwd request.timeout_sec
      = .timedOut t sout serr) :
    self.run env request pol =
      ⟨true, 124, "timeout", "Command timed out after " ++ toString t ++ " seconds.",
        sout.getD "", serr.getD "", []⟩ := by
  simp [CommandRunner.run, hcmd, hblocked, hexec, htest, hrun]

/-- C9 witness: the concrete timing-out executor produces the timeout result
with the partial streams preserved. -/
theorem c9_witness :
    reqT.command ≠ [] ∧
    find_blocked_paths envW reqT.command reqT.cwd polEmpty = [] ∧
    reqT.execute = true ∧
    (envW.getenv TEST_MODE_ENV).getD "" ≠ "1" ∧
    runnerT.executor reqT.command reqT.cwd reqT.timeout_sec
      = .timedOut 5 (some "partial-out") (some "partial-err") ∧
    runnerT.run envW reqT polEmpty =
      ⟨true, 124, "timeout", "Command timed out after " ++ toString 5 ++ " seconds.",
        "partial-out", "partial-err", []⟩ :=
  ⟨by decide, by decide, rfl, by decide, rfl,
    c9_timeout_result runnerT envW reqT polEmpty 5 (some "partial-out") (some "partial-err")
      (by decide) (by decide) rfl (by decide) rfl⟩

/-- C4 counterexample: after the path-option flag "-f" sets the expecting
state, the next token "foo" is NOT taken as a path candidate — the resolver
still applies the path-likeness test, which rejects it — refuting the claim
that the token is unconditionally a candidate with no path-likeness test. -/
theorem c4_counterexample :
    extract_candidate_paths envW ["-f", "foo"] ["work"] = [] ∧
    looksLikePath "foo" = false := by decide

/-- C4 (amended): when the 'expecting a path value' state is set, the next
non-empty token is unconditionally routed to the candidate resolver and the
state clears, but the resolver still applies its `=`-splitting and
path-likeness tests, so the token becomes a candidate only if it passes them. -/
theorem c4_expected_value_routed_to_resolver
    (env : SysEnv) (cwd : List String) (tok : String) (rest : List String)
    (h : tok ≠ "") :
    extractCandidatesAux env cwd true (tok :: rest)
      = resolveCandidatePaths env tok cwd ++ extractCandidatesAux env cwd false rest := by
  simp [extractCandidatesAux, h]

/-- C4 witness: the amended statement evaluated at the concrete token
"a.txt". -/
theorem c4_witness :
    ("a.txt" : String) ≠ "" ∧
    extractCandidatesAux envW ["work"] true ["a.txt", "next"]
      = resolveCandidatePaths envW "a.txt" ["work"]
        ++ extractCandidatesAux envW ["work"] false ["next"] :=
  ⟨by decide, c4_expected_value_routed_to_resolver envW ["work"] "a.txt" ["next"] (by decide)⟩

/-- A self-contained flag/value unit of an argument list, the tagged-variant
classification the specification describes for the extractor's scan. -/
inductive ArgUnit where
  | positional (tok : String)
  | flagWithEq (arg : String)
  | bareFlag (flag : String)
  | flagThenValue (flag : String) (value : String)
deriving Repr, DecidableEq

/-- Well-formedness of a unit: the token shapes that make the unit
self-contained, leaving no "expecting a path value" state behind. -/
def ArgUnit.wf : ArgUnit → Bool
  | .positional tok => tok != "" && !(strStartsWith tok "-")
  | .flagWithEq arg => strStartsWith arg "-" && (splitOnceEq arg).isSome
  | .bareFlag flag =>
    strStartsWith flag "-" && (splitOnceEq flag).isNone && !(optionExpectsPath flag)
  | .flagThenValue flag value =>
    strStartsWith flag "-" && (splitOnceEq flag).isNone && optionExpectsPath flag
      && value != ""

/-- The argument tokens a unit contributes to the command line. -/
def ArgUnit.render : ArgUnit → List String
  | .positional tok => [tok]
  | .flagWithEq arg => [arg]
  | .bareFlag flag => [flag]
  | .flagThenValue flag value => [flag, value]

/-- The candidate paths the extractor derives from one unit. -/
def ArgUnit.candidatePaths (env : SysEnv) (cwd : List String) : ArgUnit → List (List String)
  | .positional tok => resolveCandidatePaths env tok cwd
  | .flagWithEq arg =>
    match splitOnceEq arg with
    | some (opt, optValue) =>
      if optionExpectsPath opt || looksLikePath optValue then
        resolveCandidatePaths env optValue cwd
      else []
    | none => []
  | .bareFlag _ => []
  | .flagThenValue _ value => resolveCandidatePaths env value cwd

/-- Concatenate the tokens of a unit list into an argument list. -/
def renderUnits (units : List ArgUnit) : List String :=
  units.flatMap ArgUnit.render

/-- Concatenate the candidate paths of a unit list, in unit order. -/
def unitsPaths (env : SysEnv) (cwd : List String) : List ArgUnit → List (List String)
  | [] => []
  | u :: us => u.candidatePaths env cwd ++ unitsPaths env cwd us

/-- Helper: a string starting with a dash is non-empty. -/
theorem ne_empty_of_strStartsWith_dash (s : String)
    (h : strStartsWith s "-" = true) : s ≠ "" := by
  intro hs
  rw [hs] at h
  exact absurd h (by decide)

/-- Helper: the extractor scans a well-formed unit list unit by unit, each
unit contributing exactly its own candidates. -/
theorem extractAux_renderUnits (env : SysEnv) (cwd : List String) :
    ∀ units : List ArgUnit, (∀ u ∈ units, u.wf = true) →
      extractCandidatesAux env cwd false (renderUnits units)
        = unitsPaths env cwd units := by
  intro units
  induction units with
  | nil => intro _; rfl
  | cons u us ih =>
    intro hwf
    have hu : u.wf = true := hwf u (List.mem_cons_self u us)
    have hus : ∀ v ∈ us, v.wf = true := fun v hv => hwf v (List.mem_cons_of_mem u hv)
    have hrest := ih hus
    have hrender : renderUnits (u :: us) = u.render ++ renderUnits us := by
      simp [renderUnits]
    rw [hrender]
    cases u with
    | positional tok =>
      simp only [ArgUnit.wf, Bool.and_eq_true, bne_iff_ne, ne_eq,
        Bool.not_eq_true'] at hu
      obtain ⟨htok, hdash⟩ := hu
      simp [ArgUnit.render, extractCandidatesAux, htok, hdash, unitsPaths,
        ArgUnit.candidatePaths, hrest]
    | flagWithEq arg =>
      simp only [ArgUnit.wf, Bool.and_eq_true] at hu
      obtain ⟨hdash, hsome⟩ := hu
      have hne : arg ≠ "" := ne_empty_of_strStartsWith_dash arg hdash
      obtain ⟨⟨opt, optValue⟩, hsplit⟩ := Option.isSome_iff_exists.mp hsome
      simp [ArgUnit.render, extractCandidatesAux, hne, hdash, hsplit, unitsPaths,
        ArgUnit.candidatePaths, hrest]
    | bareFlag flag =>
      simp only [ArgUnit.wf, Bool.and_eq_true, Bool.not_eq_true'] at hu
      obtain ⟨⟨hdash, hnone⟩, hnopt⟩ := hu
      have hne : flag ≠ "" := ne_empty_of_strStartsWith_dash flag hdash
      rw [Option.isNone_iff_eq_none] at hnone
      simp [ArgUnit.render, extractCandidatesAux, hne, hdash, hnone, hnopt,
        unitsPaths, ArgUnit.candidatePaths, hrest]
    | flagThenValue flag value =>
      simp only [ArgUnit.wf, Bool.and_eq_true, bne_iff_ne, ne_eq] at hu
      obtain ⟨⟨⟨hdash, hnone⟩, hopt⟩, hval⟩ := hu
      have hne : flag ≠ "" := ne_empty_of_strStartsWith_dash flag hdash
      rw [Option.isNone_iff_eq_none] at hnone
      simp [ArgUnit.render, extractCandidatesAux, hne, hdash, hnone, hopt, hval,
        unitsPaths, ArgUnit.candidatePaths, hrest]

/-- Helper: membership in the concatenated unit candidates. -/
theorem mem_unitsPaths (env : SysEnv) (cwd : List String) (p : List String) :
    ∀ units : List ArgUnit,
      p ∈ unitsPaths env cwd units ↔ ∃ u ∈ units, p ∈ u.candidatePaths env cwd := by
  intro units
  induction units with
  | nil => simp [unitsPaths]
  | cons u us ih => simp [unitsPaths, ih, List.mem_append, or_and_right, exists_or]

/-- C8: The extractor's final candidate set is invariant under permutation of
self-contained flag/value units: reordering the units of an argument list
(keeping each value-expecting flag adjacent to its value token) produces the
same deduplicated set of normalized candidate paths. -/
theorem c8_extraction_order_insensitive (env : SysEnv) (cwd : List String)
    (units units' : List ArgUnit)
    (hwf : ∀ u ∈ units, u.wf = true) (hperm : units.Perm units') :
    (extract_candidate_paths env (renderUnits units) cwd).toFinset
      = (extract_candidate_paths env (renderUnits units') cwd).toFinset := by
  have hwf' : ∀ u ∈ units', u.wf = true := fun u hu => hwf u (hperm.mem_iff.mpr hu)
  rw [extract_candidate_paths, extract_candidate_paths,
    extractAux_renderUnits env cwd units hwf, extractAux_renderUnits env cwd units' hwf']
  ext p
  simp only [List.mem_toFinset, mem_unitsPaths]
  constructor
  · rintro ⟨u, hu, hp⟩
    exact ⟨u, hperm.mem_iff.mp hu, hp⟩
  · rintro ⟨u, hu, hp⟩
    exact ⟨u, hperm.mem_iff.mpr hu, hp⟩

/-- Concrete unit list for the C8 witness. -/
def unitsA : List ArgUnit :=
  [.flagThenValue "-f" "a.txt", .positional "/x/y", .bareFlag "--verbose"]

/-- The reversal of `unitsA`. -/
def unitsB : List ArgUnit :=
  [.bareFlag "--verbose", .positional "/x/y", .flagThenValue "-f" "a.txt"]

/-- C8 witness: reordering the three concrete units leaves the extracted
candidate set unchanged. -/
theorem c8_witness :
    (∀ u ∈ unitsA, u.wf = true) ∧ unitsA.Perm unitsB ∧
    (extract_candidate_paths envW (renderUnits unitsA) ["work"]).toFinset
      = (extract_candidate_paths envW (renderUnits unitsB) ["work"]).toFinset := by
  have hperm : unitsA.Perm unitsB := by
    have : unitsB = unitsA.reverse := by decide
    rw [this]
    exact (List.reverse_perm unitsA).symm
  exact ⟨by decide, hperm,
    c8_extraction_order_insensitive envW ["work"] unitsA unitsB (by decide) hperm⟩

/- ### Theorems about policy document loading -/

/-- Helper: a non-string entry anywhere in `deny_paths` makes the entry loop
fail. -/
theorem denyEntries_error (env : SysEnv) (baseDir : Option (List String)) :
    ∀ xs : List JValue, (∃ x ∈ xs, ∀ s, x ≠ JValue.jstr s) →
      ∃ e, denyEntriesFromList env baseDir xs = .error e := by
  intro xs
  induction xs with
  | nil => rintro ⟨x, hx, _⟩; exact absurd hx (List.not_mem_nil x)
  | cons x rest ih =>
    rintro ⟨y, hy, hys⟩
    rcases List.mem_cons.mp hy with rfl | hmem
    · cases y with
      | jstr s => exact absurd rfl (hys s)
      | null => exact ⟨_, rfl⟩
      | jbool b => exact ⟨_, rfl⟩
      | jnum n => exact ⟨_, rfl⟩
      | jarr l => exact ⟨_, rfl⟩
      | jobj f => exact ⟨_, rfl⟩
    · obtain ⟨e, he⟩ := ih ⟨y, hmem, hys⟩
      cases x with
      | jstr s => exact ⟨e, by simp [denyEntriesFromList, he]⟩
      | null => exact ⟨_, rfl⟩
      | jbool b => exact ⟨_, rfl⟩
      | jnum n => exact ⟨_, rfl⟩
      | jarr l => exact ⟨_, rfl⟩
      | jobj f => exact ⟨_, rfl⟩

/-- Helper: an all-strings `deny_paths` list makes the entry loop succeed. -/
theorem denyEntries_ok (env : SysEnv) (baseDir : Option (List String)) :
    ∀ xs : List JValue, (∀ x ∈ xs, ∃ s, x = JValue.jstr s) →
      ∃ ps, denyEntriesFromList env baseDir xs = .ok ps := by
  intro xs
  induction xs with
  | nil => intro _; exact ⟨[], rfl⟩
  | cons x rest ih =>
    intro h
    obtain ⟨ps, hps⟩ := ih (fun y hy => h y (List.mem_cons_of_mem x hy))
    obtain ⟨s, rfl⟩ := h x (List.mem_cons_self x rest)
    exact ⟨normalize_path env (.str s) baseDir :: ps, by simp [denyEntriesFromList, hps]⟩

/-- C6: Policy.from_dict raises PolicyError whenever the document's 'enabled'
field is present and not a boolean, whenever 'deny_paths' is missing or not a
list, or whenever any entry of 'deny_paths' is not a string; in every such
case no Policy value is produced. -/
theorem c6_fromDict_rejects_malformed
    (env : SysEnv) (fields : List (String × JValue)) (baseDir : Option (List String))
    (h : (∃ v, jlookup fields "enabled" = some v ∧ ∀ b, v ≠ JValue.jbool b)
      ∨ (∀ xs, jlookup fields "deny_paths" ≠ some (JValue.jarr xs))
      ∨ (∃ xs, jlookup fields "deny_paths" = some (JValue.jarr xs)
          ∧ ∃ x ∈ xs, ∀ s, x ≠ JValue.jstr s)) :
    ∃ e, Policy.fromDict env fields baseDir = .error e := by
  rcases h with ⟨v, hv, hnb⟩ | hnl | ⟨xs, hxs, hbad⟩
  · cases v with
    | jbool b => exact absurd rfl (hnb b)
    | null => exact ⟨"'enabled' must be a boolean", by simp [Policy.fromDict, hv]⟩
    | jnum n => exact ⟨"'enabled' must be a boolean", by simp [Policy.fromDict, hv]⟩
    | jstr s => exact ⟨"'enabled' must be a boolean", by simp [Policy.fromDict, hv]⟩
    | jarr l => exact ⟨"'enabled' must be a boolean", by simp [Policy.fromDict, hv]⟩
    | jobj f => exact ⟨"'enabled' must be a boolean", by simp [Policy.fromDict, hv]⟩
  · rcases henabled : (jlookup fields "enabled").getD (.jbool true) with _ | b | n | s | l | f
    case jbool =>
      rcases hdp : jlookup fields "deny_paths" with _ | v
      · exact ⟨"'deny_paths' must be a list", by simp [Policy.fromDict, henabled, hdp]⟩
      · cases v with
        | jarr xs => exact absurd hdp (hnl xs)
        | null => exact ⟨"'deny_paths' must be a list", by simp [Policy.fromDict, henabled, hdp]⟩
        | jbool b2 => exact ⟨"'deny_paths' must be a list", by simp [Policy.fromDict, henabled, hdp]⟩
        | jnum n => exact ⟨"'deny_paths' must be a list", by simp [Policy.fromDict, henabled, hdp]⟩
        | jstr s => exact ⟨"'deny_paths' must be a list", by simp [Policy.fromDict, henabled, hdp]⟩
        | jobj f => exact ⟨"'deny_paths' must be a list", by simp [Policy.fromDict, henabled, hdp]⟩
    all_goals exact ⟨"'enabled' must be a boolean", by simp [Policy.fromDict, henabled]⟩
  · obtain ⟨e, he⟩ := denyEntries_error env baseDir xs hbad
    rcases henabled : (jlookup fields "enabled").getD (.jbool true) with _ | b | n | s | l | f
    case jbool => exact ⟨e, by simp [Policy.fromDict, henabled, hxs, he]⟩
    all_goals exact ⟨"'enabled' must be a boolean", by simp [Policy.fromDict, henabled]⟩

/-- C6 witness: a document with a numeric 'enabled' field is rejected. -/
theorem c6_witness :
    ((∃ v, jlookup [("enabled", JValue.jnum 1), ("deny_paths", JValue.jarr [])] "enabled"
        = some v ∧ ∀ b, v ≠ JValue.jbool b)
      ∨ (∀ xs, jlookup [("enabled", JValue.jnum 1), ("deny_paths", JValue.jarr [])] "deny_paths"
          ≠ some (JValue.jarr xs))
      ∨ (∃ xs, jlookup [("enabled", JValue.jnum 1), ("deny_paths", JValue.jarr [])] "deny_paths"
          = some (JValue.jarr xs) ∧ ∃ x ∈ xs, ∀ s, x ≠ JValue.jstr s)) ∧
    ∃ e, Policy.fromDict envW [("enabled", JValue.jnum 1), ("deny_paths", JValue.jarr [])] none
      = .error e :=
  ⟨Or.inl ⟨JValue.jnum 1, rfl, fun b h => JValue.noConfusion h⟩,
    c6_fromDict_rejects_malformed envW [("enabled", JValue.jnum 1), ("deny_paths", JValue.jarr [])] none
      (Or.inl ⟨JValue.jnum 1, rfl, fun b h => JValue.noConfusion h⟩)⟩

/-- C10: If the persisted policy document omits the 'enabled' key entirely
while 'deny_paths' is a valid list of strings, Policy.from_dict does not
raise: it defaults enabled to true, so the loaded policy is enforcing. -/
theorem c10_missing_enabled_defaults_true
    (env : SysEnv) (fields : List (String × JValue)) (baseDir : Option (List String))
    (entries : List JValue)
    (h1 : jlookup fields "enabled" = none)
    (h2 : jlookup fields "deny_paths" = some (JValue.jarr entries))
    (h3 : ∀ x ∈ entries, ∃ s, x = JValue.jstr s) :
    ∃ pol, Policy.fromDict env fields baseDir = .ok pol ∧ pol.enabled = true := by
  obtain ⟨ps, hps⟩ := denyEntries_ok env baseDir entries h3
  exact ⟨⟨true, ps⟩, by simp [Policy.fromDict, h1, h2, hps], rfl⟩

/-- C10 witness: a document holding only a one-string deny list loads with
enabled defaulted to true. -/
theorem c10_witness :
    jlookup [("deny_paths", JValue.jarr [JValue.jstr "/secret"])] "enabled" = none ∧
    jlookup [("deny_paths", JValue.jarr [JValue.jstr "/secret"])] "deny_paths"
      = some (JValue.jarr [JValue.jstr "/secret"]) ∧
    (∀ x ∈ [JValue.jstr "/secret"], ∃ s, x = JValue.jstr s) ∧
    ∃ pol, Policy.fromDict envW [("deny_paths", JValue.jarr [JValue.jstr "/secret"])] none
      = .ok pol ∧ pol.enabled = true :=
  ⟨rfl, rfl, fun x hx => ⟨"/secret", List.mem_singleton.mp hx⟩,
    c10_missing_enabled_defaults_true envW
      [("deny_paths", JValue.jarr [JValue.jstr "/secret"])] none [JValue.jstr "/secret"]
      rfl rfl (fun x hx => ⟨"/secret", List.mem_singleton.mp hx⟩)⟩

/- ### Embedding of `audit.py` -/

/-- The audit directory: index 0 is the live log file, index k ≥ 1 the rotated
backup file suffixed `.k`; `none` means the file does not exist.  A file is
its list of appended entries. -/
def AuditFS (E : Type) := Nat → Option (List E)

/-- Pointwise file replacement. -/
def fsUpdate {E : Type} (fs : AuditFS E) (i : Nat) (v : Option (List E)) : AuditFS E :=
  fun j => if j = i then v else fs j

/-- `src.replace(dst)` guarded by `if src.exists()`. -/
def moveIfExists {E : Type} (fs : AuditFS E) (src dst : Nat) : AuditFS E :=
  match fs src with
  | none => fs
  | some v => fsUpdate (fsUpdate fs dst (some v)) src none

/-- The backup-shifting loop `for idx in range(keep - 1, 0, -1)`, highest
index first. -/
def shiftBackups {E : Type} (fs : AuditFS E) : Nat → AuditFS E
  | 0 => fs
  | n + 1 => shiftBackups (moveIfExists fs (n + 1) (n + 2)) n

/-- `path.stat().st_size` of a log file, with `sz` giving each serialized
entry's byte length. -/
def totalSize {E : Type} (sz : E → Nat) (es : List E) : Nat := (es.map sz).sum

/-- `audit._rotate_if_needed(path, max_bytes, keep)`: nothing happens when the
live file is absent or below the threshold; otherwise delete the oldest
backup, shift the remaining backups up by one, and rename the live file to
backup index 1.  (Backup indices stay distinct from the live file, which in
the source holds for every `keep ≥ 1` because backups carry a dot suffix.) -/
def rotateIfNeeded {E : Type} (sz : E → Nat) (maxBytes keep : Nat) (fs : AuditFS E) : AuditFS E :=
  match fs 0 with
  | none => fs
  | some es =>
    if totalSize sz es < maxBytes then fs
    else
      let fs1 := fsUpdate fs keep none
      let fs2 := shiftBackups fs1 (keep - 1)
      fsUpdate (fsUpdate fs2 1 (fs2 0)) 0 none

/-- `audit.write_audit_log`: under the sidecar lock, rotate if needed, then
append one entry, creating the live file when absent.  (The lock and the
parent `mkdir` are cross-process effects outside this single-writer model;
each entry is one atomic line.) -/
def write_audit_log {E : Type} (sz : E → Nat) (maxBytes keep : Nat) (fs : AuditFS E) (entry : E) : AuditFS E :=
  let fs1 := rotateIfNeeded sz maxBytes keep fs
  fsUpdate fs1 0 (some ((fs1 0).getD [] ++ [entry]))

/-- A sequence of audit writes, oldest first. -/
def writeAll {E : Type} (sz : E → Nat) (maxBytes keep : Nat) (fs : AuditFS E) (entries : List E) : AuditFS E :=
  entries.foldl (write_audit_log sz maxBytes keep) fs

/-- The state with no log files. -/
def emptyAuditFS {E : Type} : AuditFS E := fun _ => none

/- ### Theorems about the audit log -/

theorem fsUpdate_same {E : Type} (fs : AuditFS E) (i : Nat) (v : Option (List E)) :
    fsUpdate fs i v i = v := by simp [fsUpdate]

theorem fsUpdate_other {E : Type} (fs : AuditFS E) (i j : Nat) (v : Option (List E))
    (h : j ≠ i) : fsUpdate fs i v j = fs j := by simp [fsUpdate, h]

theorem moveIfExists_apply_ne {E : Type} (fs : AuditFS E) (src dst j : Nat)
    (h1 : j ≠ src) (h2 : j ≠ dst) : moveIfExists fs src dst j = fs j := by
  unfold moveIfExists
  cases fs src with
  | none => rfl
  | some v => simp [fsUpdate, h1, h2]

/-- Rotation is a no-op below the threshold. -/
theorem rotate_below_threshold {E : Type} (sz : E → Nat) (maxB keep : Nat)
    (fs : AuditFS E) (es : List E)
    (h0 : fs 0 = some es) (hlt : totalSize sz es < maxB) :
    rotateIfNeeded sz maxB keep fs = fs := by
  simp [rotateIfNeeded, h0, hlt]

/-- Rotation is a no-op when the live file is absent. -/
theorem rotate_no_live {E : Type} (sz : E → Nat) (maxB keep : Nat) (fs : AuditFS E)
    (h0 : fs 0 = none) : rotateIfNeeded sz maxB keep fs = fs := by
  simp [rotateIfNeeded, h0]

/-- With retention 2, rotation at or above the threshold empties the live slot
and moves the live entries to backup 1. -/
theorem rotate2_at_threshold {E : Type} (sz : E → Nat) (maxB : Nat)
    (fs : AuditFS E) (es : List E)
    (h0 : fs 0 = some es) (hge : ¬ totalSize sz es < maxB) :
    rotateIfNeeded sz maxB 2 fs 0 = none ∧ rotateIfNeeded sz maxB 2 fs 1 = some es := by
  have hshift : shiftBackups (fsUpdate fs 2 none) 1 = moveIfExists (fsUpdate fs 2 none) 1 2 := rfl
  constructor
  · simp [rotateIfNeeded, h0, hge, fsUpdate_same]
  · simp only [rotateIfNeeded, h0, hge, if_false]
    rw [fsUpdate_other _ _ _ _ (by decide), fsUpdate_same, hshift,
      moveIfExists_apply_ne _ _ _ _ (by decide) (by decide),
      fsUpdate_other _ _ _ _ (by decide), h0]

/-- Helper: a list of naturals all at least 30 sums to at least 30 times its
length. -/
theorem sum_ge_thirty_mul_length (l : List Nat) (h : ∀ x ∈ l, 30 ≤ x) :
    30 * l.length ≤ l.sum := by
  induction l with
  | nil => simp
  | cons x xs ih =>
    have hx := h x (List.mem_cons_self x xs)
    have hxs := ih (fun y hy => h y (List.mem_cons_of_mem x hy))
    simp only [List.length_cons, List.sum_cons, Nat.mul_succ]
    omega

/-- Invariant maintained by the 120-byte-threshold, retention-2 write
sequence over entries of at least 30 bytes: the live file exists, is
non-empty, holds entries of at least 30 bytes whose total minus the last stays
below the threshold, and counts all `n` entries written so far whenever no
rotation has happened yet; backup 1, when present, holds at most 4 entries. -/
def AuditInvariant (n : Nat) (fs : AuditFS Nat) : Prop :=
  (∃ es, fs 0 = some es ∧ es ≠ [] ∧ (∀ s ∈ es, 30 ≤ s)
    ∧ totalSize id es.dropLast < 120 ∧ (fs 1 = none → es.length = n)) ∧
  (fs 1 = none ∨ ∃ bs, fs 1 = some bs ∧ bs.length ≤ 4)

/-- Helper: the live-file part of the invariant bounds the live length by 4. -/
theorem live_length_le_four (es : List Nat) (hne : es ≠ [])
    (hall : ∀ s ∈ es, 30 ≤ s) (hdl : totalSize id es.dropLast < 120) :
    es.length ≤ 4 := by
  have hsub : ∀ x ∈ es.dropLast, 30 ≤ x :=
    fun x hx => hall x (List.dropLast_sublist es |>.mem hx)
  have hsum : 30 * es.dropLast.length ≤ es.dropLast.sum :=
    sum_ge_thirty_mul_length _ hsub
  have hsum' : es.dropLast.sum < 120 := by
    have : totalSize id es.dropLast = es.dropLast.sum := by simp [totalSize]
    omega
  have hlen : es.length = es.dropLast.length + 1 := by
    rw [List.length_dropLast]
    have := List.length_pos.mpr hne
    omega
  omega

/-- One write of an entry of at least 30 bytes preserves the invariant. -/
theorem audit_step (n : Nat) (fs : AuditFS Nat) (s : Nat) (hs : 30 ≤ s)
    (hI : AuditInvariant n fs) :
    AuditInvariant (n + 1) (write_audit_log id 120 2 fs s) := by
  obtain ⟨⟨es, h0, hne, hall, hdl, hcount⟩, h1inv⟩ := hI
  by_cases hlt : totalSize id es < 120
  · have hrot : rotateIfNeeded id 120 2 fs = fs := rotate_below_threshold id 120 2 fs es h0 hlt
    have hw0 : write_audit_log id 120 2 fs s 0 = some (es ++ [s]) := by
      simp [write_audit_log, hrot, fsUpdate_same, h0]
    have hw1 : write_audit_log id 120 2 fs s 1 = fs 1 := by
      simp only [write_audit_log, hrot]
      exact fsUpdate_other _ _ _ _ (by decide)
    constructor
    · refine ⟨es ++ [s], hw0, by simp, ?_, ?_, ?_⟩
      · intro x hx
        rcases List.mem_append.mp hx with hx | hx
        · exact hall x hx
        · rw [List.mem_singleton.mp hx]; exact hs
      · have : (es ++ [s]).dropLast = es := by simp
        rw [this]
        exact hlt
      · intro hnone
        rw [hw1] at hnone
        have := hcount hnone
        simp [this]
    · rw [hw1]
      exact h1inv
  · obtain ⟨hr0, hr1⟩ := rotate2_at_threshold id 120 fs es h0 hlt
    have hw0 : write_audit_log id 120 2 fs s 0 = some [s] := by
      simp [write_audit_log, fsUpdate_same, hr0]
    have hw1 : write_audit_log id 120 2 fs s 1 = some es := by
      simp only [write_audit_log]
      rw [fsUpdate_other _ _ _ _ (by decide), hr1]
    constructor
    · refine ⟨[s], hw0, by simp, ?_, by simp [totalSize], ?_⟩
      · intro x hx
        rw [List.mem_singleton.mp hx]; exact hs
      · intro hnone
        rw [hw1] at hnone
        exact absurd hnone (by simp)
    · exact Or.inr ⟨es, hw1, live_length_le_four es hne hall hdl⟩

/-- The invariant carries through a sequence of writes of at least 30 bytes
each. -/
theorem audit_writeAll_inv (sizes : List Nat) (hmin : ∀ s ∈ sizes, 30 ≤ s) :
    ∀ (n : Nat) (fs : AuditFS Nat), AuditInvariant n fs →
      AuditInvariant (n + sizes.length) (writeAll id 120 2 fs sizes) := by
  induction sizes with
  | nil => intro n fs h; simpa [writeAll] using h
  | cons s rest ih =>
    intro n fs h
    have hstep := audit_step n fs s (hmin s (List.mem_cons_self s rest)) h
    have htail := ih (fun x hx => hmin x (List.mem_cons_of_mem s hx)) (n + 1)
      (write_audit_log id 120 2 fs s) hstep
    have harith : n + 1 + rest.length = n + (rest.length + 1) := by omega
    rw [harith] at htail
    simpa [writeAll, List.foldl_cons] using htail

/-- Serialized byte length of each entry in the concrete C5 scenario: every
one of the 20 writes is exactly 30 bytes. -/
def c5sz : Nat → Nat := fun _ => 30

/-- The audit directory after 20 writes (entries numbered 0..19, 30 bytes
each) with rotation threshold 120 bytes and retention 2, starting from no log
files. -/
def c5final : AuditFS Nat := writeAll c5sz 120 2 emptyAuditFS (List.range 20)

set_option maxRecDepth 4000 in
/-- C5 counterexample: in the stated scenario (20 writes of at least 30 bytes
each, threshold 120, retention 2, starting from no log files) the live file
and backup 1 both exist but together contain 8 entries — the most recent ones,
numbers 12..19 — not the claimed 20: writes 0..7 were deleted or pushed to
backup 2 by rotation. -/
theorem c5_counterexample :
    (List.range 20).length = 20 ∧
    c5final 0 = some [16, 17, 18, 19] ∧
    c5final 1 = some [12, 13, 14, 15] ∧
    ((c5final 0).getD []).length + ((c5final 1).getD []).length = 8 ∧
    ¬ (((c5final 0).getD []).length + ((c5final 1).getD []).length = 20) := by
  decide

/-- C5 (amended): starting from no log files, performing 20 audit writes of
at least 30 bytes each with rotation threshold 120 bytes and retention count 2
leaves both the live log file and the backup at index 1 in existence, but the
two files together contain at most 8 of the 20 entries (the most recent ones);
the rest were rotated to backup 2 or deleted. -/
theorem c5_amended_retention_bound (sizes : List Nat)
    (hlen : sizes.length = 20) (hmin : ∀ s ∈ sizes, 30 ≤ s) :
    (writeAll id 120 2 emptyAuditFS sizes 0).isSome ∧
    (writeAll id 120 2 emptyAuditFS sizes 1).isSome ∧
    ((writeAll id 120 2 emptyAuditFS sizes 0).getD []).length
      + ((writeAll id 120 2 emptyAuditFS sizes 1).getD []).length ≤ 8 := by
  cases sizes with
  | nil => simp at hlen
  | cons s rest =>
    have hs : 30 ≤ s := hmin s (List.mem_cons_self s rest)
    have hrest30 : ∀ x ∈ rest, 30 ≤ x := fun x hx => hmin x (List.mem_cons_of_mem s hx)
    have hempty0 : emptyAuditFS (E := Nat) 0 = none := rfl
    have hfirst : AuditInvariant 1 (write_audit_log id 120 2 emptyAuditFS s) := by
      have hw0 : write_audit_log id 120 2 emptyAuditFS s 0 = some [s] := by
        simp [write_audit_log, rotate_no_live id 120 2 emptyAuditFS hempty0,
          fsUpdate_same, emptyAuditFS]
      have hw1 : write_audit_log id 120 2 emptyAuditFS s 1 = none := by
        simp only [write_audit_log, rotate_no_live id 120 2 emptyAuditFS hempty0]
        rw [fsUpdate_other _ _ _ _ (by decide)]
        rfl
      exact ⟨⟨[s], hw0, by simp,
        fun x hx => by rw [List.mem_singleton.mp hx]; exact hs,
        by simp [totalSize], fun _ => rfl⟩, Or.inl hw1⟩
    have hinv := audit_writeAll_inv rest hrest30 1 _ hfirst
    have hlen' : rest.length = 19 := by simpa using hlen
    rw [hlen'] at hinv
    have hfold : writeAll id 120 2 emptyAuditFS (s :: rest)
        = writeAll id 120 2 (write_audit_log id 120 2 emptyAuditFS s) rest := by
      simp [writeAll, List.foldl_cons]
    rw [hfold]
    obtain ⟨⟨es, h0, hne, hall, hdl, hcount⟩, h1inv⟩ := hinv
    have heslen : es.length ≤ 4 := live_length_le_four es hne hall hdl
    rcases h1inv with h1 | ⟨bs, h1, hbs⟩
    · exfalso
      have := hcount h1
      omega
    · refine ⟨by rw [h0]; rfl, by rw [h1]; rfl, ?_⟩
      rw [h0, h1]
      simp only [Option.getD_some]
      omega

/-- C5 witness: the amended retention bound evaluated at 20 writes of exactly
30 bytes. -/
theorem c5_witness :
    (List.replicate 20 30).length = 20 ∧
    (∀ s ∈ List.replicate 20 30, 30 ≤ s) ∧
    (writeAll id 120 2 emptyAuditFS (List.replicate 20 30) 0).isSome ∧
    (writeAll id 120 2 emptyAuditFS (List.replicate 20 30) 1).isSome ∧
    ((writeAll id 120 2 emptyAuditFS (List.replicate 20 30) 0).getD []).length
      + ((writeAll id 120 2 emptyAuditFS (List.replicate 20 30) 1).getD []).length ≤ 8 := by
  have h1 : (List.replicate 20 30).length = 20 := by decide
  have h2 : ∀ s ∈ List.replicate 20 30, 30 ≤ s := by decide
  obtain ⟨a, b, c⟩ := c5_amended_retention_bound (List.replicate 20 30) h1 h2
  exact ⟨h1, h2, a, b, c⟩
